import Mathlib

/-!
Verification of the `trading.exchgs` matching engine (Owner Credit repository).

The embedding below follows `src/trading/exchgs.py` closely:

* the `Trade` structure is the `trade` namedtuple, used both for resting
  orders (where `price = none` encodes the None/NaN "market price" sentinel
  recognised by `misc.non_value`) and for the trade records yielded by
  `market.execute`;
* `Market` is the `market` class with its `buying`/`selling` books,
  `lastprice` and `transaction` counters;
* Python's `list.sort(key=...)` is a stable sort; `stableSort` below is a
  stable insertion sort with respect to the boolean key comparison, hence
  produces exactly the same ordering on the same input;
* quantities are integers and prices/timestamps rationals (the test-suite
  values are all exactly representable, and the engine only compares them);
* `market.execute` is a while loop that, on every iteration that yields a
  pair of trades, removes at least one order from the books, so running the
  loop body `|buying| + |selling|` times is guaranteed to reach the exit
  condition; `Market.execute` uses that bound as structural fuel and
  `Market.executeFuel_congr` shows that the result is fuel-insensitive,
  i.e. it is the fixpoint of the loop.
-/

/-- The `trade` namedtuple of `exchgs.py`: security, price, time, amount,
agent.  `price = none` models the `None`/NaN market-price sentinel; the
`agent` opaque owner token is modelled as a string. -/
structure Trade where
  security : String
  price : Option ℚ
  time : ℚ
  amount : ℤ
  agent : String
deriving DecidableEq, Repr

/-- `sell_book_key order = (misc.nan_first(order.price), -order.time)`,
compared lexicographically: `none` sorts first (like `-inf`), and among
equal prices larger times sort first (because of the negation). -/
def sellLE (x y : Trade) : Bool :=
  match x.price, y.price with
  | none, none => decide (y.time ≤ x.time)
  | none, some _ => true
  | some _, none => false
  | some px, some py => decide (px < py) || (decide (px = py) && decide (y.time ≤ x.time))

/-- `buy_book_key order = (misc.nan_last(order.price), order.time)`,
compared lexicographically: `none` sorts last (like `+inf`), and among
equal prices smaller times sort first. -/
def buyLE (x y : Trade) : Bool :=
  match x.price, y.price with
  | none, none => decide (x.time ≤ y.time)
  | none, some _ => false
  | some _, none => true
  | some px, some py => decide (px < py) || (decide (px = py) && decide (x.time ≤ y.time))

/-- Insert `x` before the first element `y` with `le x y`; the building
block of the stable insertion sort. -/
def insertOrdered {α : Type} (le : α → α → Bool) (x : α) : List α → List α
  | [] => [x]
  | y :: ys => if le x y then x :: y :: ys else y :: insertOrdered le x ys

/-- Stable sort with respect to the total boolean preorder `le`; equal-key
elements keep their relative order, exactly as Python's `list.sort`. -/
def stableSort {α : Type} (le : α → α → Bool) : List α → List α
  | [] => []
  | x :: xs => insertOrdered le x (stableSort le xs)

/-- The `market` class: one security's order books plus the advisory
last-seen time, last trade price and transaction counter. -/
structure Market where
  name : String
  now : ℚ
  buying : List Trade
  selling : List Trade
  lastprice : ℚ
  transaction : ℕ
deriving DecidableEq, Repr

/-- `market.__init__(name, now)` with empty books, `lastprice = 0.` and
`transaction = 0`. -/
def Market.init (name : String) (now : ℚ) : Market :=
  ⟨name, now, [], [], 0, 0⟩

/-- `market.close(agent)`: drop every order owned by `agent` from both
books (the Python `is not` identity test on the opaque owner token is
modelled as string disequality). -/
def Market.close (m : Market) (agent : String) : Market :=
  { m with buying := m.buying.filter (fun o => !(o.agent == agent)),
           selling := m.selling.filter (fun o => !(o.agent == agent)) }

/-- `market.enter(order, update)`: optionally close the owner's resting
orders, then append the order to the book selected by the sign test
`order.amount >= 0` and re-sort that book (stably, by its key). -/
def Market.enter (m : Market) (order : Trade) (update : Bool) : Market :=
  let m1 := if update then m.close order.agent else m
  if 0 ≤ order.amount then
    { m1 with buying := stableSort buyLE (m1.buying ++ [order]) }
  else
    { m1 with selling := stableSort sellLE (m1.selling ++ [order]) }

/-- `market.buy(agent, amount, price, now, update)`. -/
def Market.buy (m : Market) (agent : String) (amount : ℤ) (price : Option ℚ)
    (now : ℚ) (update : Bool) : Market :=
  m.enter ⟨m.name, price, now, amount, agent⟩ update

/-- `market.sell(agent, amount, price, now, update)`: a buy of `-amount`. -/
def Market.sell (m : Market) (agent : String) (amount : ℤ) (price : Option ℚ)
    (now : ℚ) (update : Bool) : Market :=
  m.enter ⟨m.name, price, now, -amount, agent⟩ update

/-- The loop guard of `market.execute`: books crossed, i.e.
`non_value(selling[0].price) or non_value(buying[-1].price) or
selling[0].price <= buying[-1].price`. -/
def crossed (btop stp : Trade) : Bool :=
  match stp.price, btop.price with
  | none, _ => true
  | _, none => true
  | some ps, some pb => decide (ps ≤ pb)

/-- The price-search loop of `market.execute`: first explicit limit price
in the given scan order, if any. -/
def findLimit (l : List Trade) : Option ℚ :=
  match l.find? (fun o => o.price.isSome) with
  | some o => o.price
  | none => none

/-- Lines 201-225 of `exchgs.py`: the more recently placed top order sets
the price; a market-price setter falls back to the other top order's
price; if both tops are market orders the books are scanned (starting with
the more recent side's own book) for the nearest limit price. -/
def discoverPrice (m : Market) (btop stp : Trade) : Option ℚ :=
  if btop.time < stp.time then
    match stp.price with
    | some p => some p
    | none =>
      match btop.price with
      | some p => some p
      | none => findLimit (m.buying.reverse ++ m.selling)
  else
    match btop.price with
    | some p => some p
    | none =>
      match stp.price with
      | some p => some p
      | none => findLimit (m.selling ++ m.buying.reverse)

/-- Book update for `buying[-1]`: delete it when fully matched, otherwise
replace it in place by the reduced-amount copy. -/
def reduceBuy (buying : List Trade) (btop : Trade) (amount : ℤ) : List Trade :=
  if amount = btop.amount then buying.dropLast
  else buying.dropLast ++ [⟨btop.security, btop.price, btop.time, btop.amount - amount, btop.agent⟩]

/-- Book update for `selling[0]`: delete it when fully matched, otherwise
replace it in place by the reduced-amount copy (selling amounts stay
negative, so the reduction adds the matched amount). -/
def reduceSell (selling : List Trade) (stp : Trade) (amount : ℤ) : List Trade :=
  if amount = -stp.amount then selling.tail
  else ⟨stp.security, stp.price, stp.time, stp.amount + amount, stp.agent⟩ :: selling.tail

/-- One iteration of the `while` loop of `market.execute`: `none` when the
loop exits (books empty, tops not crossed, or no price can be discovered),
otherwise the two yielded trade records and the updated market. -/
def Market.execStep (m : Market) (now : ℚ) : Option (Trade × Trade × Market) :=
  match m.buying.getLast?, m.selling.head? with
  | some btop, some stp =>
    if crossed btop stp then
      match discoverPrice m btop stp with
      | some price =>
        some (⟨m.name, some price, now, min btop.amount (-stp.amount), btop.agent⟩,
              ⟨m.name, some price, now, -(min btop.amount (-stp.amount)), stp.agent⟩,
              { m with
                buying := reduceBuy m.buying btop (min btop.amount (-stp.amount)),
                selling := reduceSell m.selling stp (min btop.amount (-stp.amount)),
                lastprice := price,
                transaction := m.transaction + 1 })
      | none => none
    else none
  | _, _ => none

/-- Iterate `Market.execStep`, collecting the yielded trade records, with
explicit fuel. -/
def Market.executeFuel : ℕ → Market → ℚ → List Trade × Market
  | 0, m, _ => ([], m)
  | Nat.succ fuel, m, now =>
    match m.execStep now with
    | none => ([], m)
    | some (t1, t2, m1) =>
      let r := Market.executeFuel fuel m1 now
      (t1 :: t2 :: r.1, r.2)

/-- `market.execute(now)`: the full list of yielded trade records together
with the final market state.  `|buying| + |selling|` iterations always
suffice because every productive iteration deletes at least one order
(`Market.execStep_decreases`); `Market.executeFuel_congr` shows the result
is the loop's fixpoint. -/
def Market.execute (m : Market) (now : ℚ) : List Trade × Market :=
  Market.executeFuel (m.buying.length + m.selling.length) m now

/-- The `exchange` class: a name and an insertion-ordered map from
security to its market, modelled as an association list. -/
structure Exchange where
  name : String
  markets : List (String × Market)
deriving DecidableEq, Repr

/-- `exchange.__init__(name)`. -/
def Exchange.init (name : String) : Exchange :=
  ⟨name, []⟩

/-- Dictionary lookup `self.markets[security]`. -/
def Exchange.getMarket? (e : Exchange) (security : String) : Option Market :=
  match e.markets.find? (fun kv => kv.1 == security) with
  | some kv => some kv.2
  | none => none

/-- Dictionary store `self.markets[security] = mkt` (overwrite in place,
or append preserving insertion order). -/
def Exchange.setMarket (e : Exchange) (security : String) (mkt : Market) : Exchange :=
  if (e.markets.find? (fun kv => kv.1 == security)).isSome then
    ⟨e.name, e.markets.map (fun kv => if kv.1 == security then (security, mkt) else kv)⟩
  else
    ⟨e.name, e.markets ++ [(security, mkt)]⟩

/-- `exchange.buy`: create the market lazily, then `market.buy`.  A market
created here gets an advisory creation time of `0` (the source uses the
wall clock, which the engine never reads back). -/
def Exchange.buy (e : Exchange) (security : String) (agent : String) (amount : ℤ)
    (price : Option ℚ) (now : ℚ) (update : Bool) : Exchange :=
  let mkt := match e.getMarket? security with
             | some mkt => mkt
             | none => Market.init security 0
  e.setMarket security (mkt.buy agent amount price now update)

/-- `exchange.sell`: create the market lazily, then delegate.  Note that
line 280 of `exchgs.py` delegates to `market.buy`, not `market.sell`. -/
def Exchange.sell (e : Exchange) (security : String) (agent : String) (amount : ℤ)
    (price : Option ℚ) (now : ℚ) (update : Bool) : Exchange :=
  let mkt := match e.getMarket? security with
             | some mkt => mkt
             | none => Market.init security 0
  e.setMarket security (mkt.buy agent amount price now update)

/-- `exchange.enter`: create the market lazily, then `market.enter`. -/
def Exchange.enter (e : Exchange) (order : Trade) (update : Bool) : Exchange :=
  let mkt := match e.getMarket? order.security with
             | some mkt => mkt
             | none => Market.init order.security 0
  e.setMarket order.security (mkt.enter order update)

/-- The market built by `test_market_simple` in `trading_test.py`: sells
A:250@4.00(t=1), C:200@4.00(t=2), D:200@4.01(t=3), E:100@4.10(t=5) and
buys B:500@4.10(t=2), F:10@3.99(t=6). -/
def scenarioMarket : Market :=
  ((((((Market.init "grain" 0).sell "agent A" 250 (some 4) 1 true).buy
      "agent B" 500 (some (mkRat 41 10)) 2 true).sell
      "agent C" 200 (some 4) 2 true).sell
      "agent D" 200 (some (mkRat 401 100)) 3 true).sell
      "agent E" 100 (some (mkRat 41 10)) 5 true).buy
      "agent F" 10 (some (mkRat 399 100)) 6 true

/-- An order with zero quantity; `market.enter` routes it through the
`order.amount >= 0` branch into the buying book. -/
def zeroOrder : Trade :=
  ⟨"grain", some 4, 1, 0, "agent Z"⟩

/-- Top buy order of a small two-order workhorse market used to witness
the execution-step theorems. -/
def oBW : Trade :=
  ⟨"g", some 3, 2, 10, "B"⟩

/-- Top sell order of the workhorse market. -/
def oSW : Trade :=
  ⟨"g", some 2, 1, -4, "S"⟩

/-- A crossed market (buy 10@3 at t=2 against sell 4@2 at t=1). -/
def mexW : Market :=
  ⟨"g", 0, [oBW], [oSW], 0, 0⟩

/-- The buyer-side trade record produced by one step of `mexW` at t=5. -/
def t1W : Trade :=
  ⟨"g", some 3, 5, 4, "B"⟩

/-- The seller-side trade record produced by one step of `mexW` at t=5. -/
def t2W : Trade :=
  ⟨"g", some 3, 5, -4, "S"⟩

/-- The market left after one execution step of `mexW` at t=5. -/
def mexW1 : Market :=
  ⟨"g", 0, [⟨"g", some 3, 2, 6, "B"⟩], [], 3, 1⟩

/-- Top buy order with the same timestamp as the top sell order. -/
def oB10 : Trade :=
  ⟨"h", some 5, 3, 7, "B"⟩

/-- Top sell order with the same timestamp as the top buy order. -/
def oS10 : Trade :=
  ⟨"h", some 4, 3, -2, "S"⟩

/-- A crossed market whose two top orders carry equal timestamps. -/
def mW10 : Market :=
  ⟨"h", 0, [oB10], [oS10], 0, 0⟩

/-- A market-price buy order resting alone on the buy side. -/
def oB7 : Trade :=
  ⟨"k", none, 1, 5, "B"⟩

/-- A market-price sell order resting alone on the sell side. -/
def oS7 : Trade :=
  ⟨"k", none, 2, -5, "S"⟩

/-- A market holding a mutually crossed pair of market-price orders and no
limit order anywhere: no price can be discovered. -/
def mW7 : Market :=
  ⟨"k", 0, [oB7], [oS7], 0, 0⟩

/-- More recent of two equal-priced sell orders. -/
def oX5 : Trade :=
  ⟨"q", some 4, 2, -3, "X"⟩

/-- Older of two equal-priced sell orders. -/
def oY5 : Trade :=
  ⟨"q", some 4, 1, -3, "Y"⟩

/-- Market states reachable through the public mutators of the `market`
class, with arbitrary orders (including zero-quantity ones). -/
inductive ReachAny : Market → Prop where
  | init : ∀ (name : String) (now : ℚ), ReachAny (Market.init name now)
  | enter : ∀ (m : Market) (o : Trade) (u : Bool), ReachAny m → ReachAny (m.enter o u)
  | buy : ∀ (m : Market) (a : String) (amt : ℤ) (p : Option ℚ) (now : ℚ) (u : Bool),
      ReachAny m → ReachAny (m.buy a amt p now u)
  | sell : ∀ (m : Market) (a : String) (amt : ℤ) (p : Option ℚ) (now : ℚ) (u : Bool),
      ReachAny m → ReachAny (m.sell a amt p now u)
  | close : ∀ (m : Market) (a : String), ReachAny m → ReachAny (m.close a)
  | exec : ∀ (m : Market) (now : ℚ), ReachAny m → ReachAny ((m.execute now).2)

/-- Market states reachable through the public mutators of the `market`
class when every submitted order has nonzero quantity. -/
inductive ReachNZ : Market → Prop where
  | init : ∀ (name : String) (now : ℚ), ReachNZ (Market.init name now)
  | enter : ∀ (m : Market) (o : Trade) (u : Bool), ReachNZ m → o.amount ≠ 0 → ReachNZ (m.enter o u)
  | buy : ∀ (m : Market) (a : String) (amt : ℤ) (p : Option ℚ) (now : ℚ) (u : Bool),
      ReachNZ m → amt ≠ 0 → ReachNZ (m.buy a amt p now u)
  | sell : ∀ (m : Market) (a : String) (amt : ℤ) (p : Option ℚ) (now : ℚ) (u : Bool),
      ReachNZ m → amt ≠ 0 → ReachNZ (m.sell a amt p now u)
  | close : ∀ (m : Market) (a : String), ReachNZ m → ReachNZ (m.close a)
  | exec : ∀ (m : Market) (now : ℚ), ReachNZ m → ReachNZ ((m.execute now).2)

/-- Ordered insertion only adds the inserted element. -/
theorem mem_insertOrdered {α : Type} (le : α → α → Bool) (x a : α) (l : List α) :
    a ∈ insertOrdered le x l ↔ a = x ∨ a ∈ l := by
  induction l with
  | nil => simp [insertOrdered]
  | cons y ys ih =>
    unfold insertOrdered
    by_cases h : le x y
    · rw [if_pos h]
      simp [List.mem_cons]
    · rw [if_neg h]
      simp [List.mem_cons, ih]
      tauto

/-- `stableSort` is a permutation on the level of membership. -/
theorem mem_stableSort {α : Type} (le : α → α → Bool) (a : α) (l : List α) :
    a ∈ stableSort le l ↔ a ∈ l := by
  induction l with
  | nil => simp [stableSort]
  | cons x xs ih => simp [stableSort, mem_insertOrdered, ih, List.mem_cons]

/-- The last element of a list is a member. -/
theorem mem_of_getLast?_eq_some {α : Type} : ∀ {l : List α} {a : α},
    l.getLast? = some a → a ∈ l := by
  intro l
  induction l with
  | nil => intro a h; simp at h
  | cons x xs ih =>
    intro a h
    cases xs with
    | nil =>
      simp [List.getLast?] at h
      simp [h]
    | cons y ys =>
      rw [List.getLast?_cons_cons] at h
      exact List.mem_cons_of_mem x (ih h)

/-- Characterisation of a productive execution step: the two trade records
and the updated market are exactly the ones built from the crossed tops
and the discovered price. -/
theorem execStep_some_spec {m : Market} {now : ℚ} {t1 t2 : Trade} {m1 : Market}
    (h : m.execStep now = some (t1, t2, m1)) :
    ∃ btop stp price,
      m.buying.getLast? = some btop ∧ m.selling.head? = some stp ∧
      crossed btop stp = true ∧ discoverPrice m btop stp = some price ∧
      t1 = ⟨m.name, some price, now, min btop.amount (-stp.amount), btop.agent⟩ ∧
      t2 = ⟨m.name, some price, now, -(min btop.amount (-stp.amount)), stp.agent⟩ ∧
      m1 = { m with
             buying := reduceBuy m.buying btop (min btop.amount (-stp.amount)),
             selling := reduceSell m.selling stp (min btop.amount (-stp.amount)),
             lastprice := price,
             transaction := m.transaction + 1 } := by
  unfold Market.execStep at h
  cases hb : m.buying.getLast? with
  | none => rw [hb] at h; simp at h
  | some btop =>
    cases hs : m.selling.head? with
    | none => rw [hb, hs] at h; simp at h
    | some stp =>
      rw [hb, hs] at h
      dsimp only at h
      by_cases hc : crossed btop stp
      · rw [if_pos hc] at h
        cases hdp : discoverPrice m btop stp with
        | none => rw [hdp] at h; simp at h
        | some price =>
          rw [hdp] at h
          simp only [Option.some.injEq, Prod.mk.injEq] at h
          obtain ⟨h1, h2, h3⟩ := h
          exact ⟨btop, stp, price, rfl, rfl, hc, hdp, h1.symm, h2.symm, h3.symm⟩
      · rw [if_neg hc] at h; simp at h

/-- Conversely, crossed tops with a discoverable price always produce the
step built from them. -/
theorem execStep_some_intro (m : Market) (now : ℚ) {btop stp : Trade} {price : ℚ}
    (hb : m.buying.getLast? = some btop) (hs : m.selling.head? = some stp)
    (hc : crossed btop stp = true) (hdp : discoverPrice m btop stp = some price) :
    m.execStep now = some
      (⟨m.name, some price, now, min btop.amount (-stp.amount), btop.agent⟩,
       ⟨m.name, some price, now, -(min btop.amount (-stp.amount)), stp.agent⟩,
       { m with
         buying := reduceBuy m.buying btop (min btop.amount (-stp.amount)),
         selling := reduceSell m.selling stp (min btop.amount (-stp.amount)),
         lastprice := price,
         transaction := m.transaction + 1 }) := by
  unfold Market.execStep
  rw [hb, hs]
  dsimp only
  rw [if_pos hc, hdp]

/-- Every productive step deletes at least one order from the books. -/
theorem execStep_decreases {m : Market} {now : ℚ} {t1 t2 : Trade} {m1 : Market}
    (h : m.execStep now = some (t1, t2, m1)) :
    m1.buying.length + m1.selling.length < m.buying.length + m.selling.length := by
  obtain ⟨btop, stp, price, hb, hs, hc, hdp, e1, e2, e3⟩ := execStep_some_spec h
  subst e3
  have hbne : m.buying ≠ [] := by intro he; rw [he] at hb; simp at hb
  have hsne : m.selling ≠ [] := by intro he; rw [he] at hs; simp at hs
  have hbl : 1 ≤ m.buying.length := List.length_pos.mpr hbne
  have hsl : 1 ≤ m.selling.length := List.length_pos.mpr hsne
  have hchoice : min btop.amount (-stp.amount) = btop.amount ∨
      min btop.amount (-stp.amount) = -stp.amount := min_choice _ _
  dsimp only
  unfold reduceBuy reduceSell
  have hdb := List.length_dropLast m.buying
  have hdt := List.length_tail m.selling
  by_cases h1 : min btop.amount (-stp.amount) = btop.amount
  · rw [if_pos h1]
    by_cases h2 : min btop.amount (-stp.amount) = -stp.amount
    · rw [if_pos h2]
      omega
    · rw [if_neg h2]
      simp only [List.length_cons]
      omega
  · have h2 : min btop.amount (-stp.amount) = -stp.amount := hchoice.resolve_left h1
    rw [if_neg h1, if_pos h2]
    simp only [List.length_append, List.length_cons, List.length_nil]
    omega

/-- Once the loop guard fails, any amount of fuel returns immediately. -/
theorem executeFuel_of_none {m : Market} {now : ℚ} (h : m.execStep now = none) :
    ∀ fuel, Market.executeFuel fuel m now = ([], m) := by
  intro fuel
  cases fuel with
  | zero => rfl
  | succ n => simp [Market.executeFuel, h]

/-- Any fuel at least the total book size computes `Market.execute`: the
fuel-indexed iteration is the fixpoint of the `while` loop. -/
theorem executeFuel_congr : ∀ (fuel : ℕ) (m : Market) (now : ℚ),
    m.buying.length + m.selling.length ≤ fuel →
    Market.executeFuel fuel m now = m.execute now := by
  intro fuel
  induction fuel using Nat.strong_induction_on with
  | _ fuel ih =>
    intro m now hle
    cases fuel with
    | zero =>
      have h0 : m.buying.length + m.selling.length = 0 := by omega
      unfold Market.execute
      rw [h0]
    | succ n =>
      cases h : m.execStep now with
      | none =>
        rw [executeFuel_of_none h]
        unfold Market.execute
        rw [executeFuel_of_none h]
      | some t =>
        obtain ⟨t1, t2, m1⟩ := t
        have hdec := execStep_decreases h
        have hpos : 1 ≤ m.buying.length + m.selling.length := by
          obtain ⟨btop, stp, price, hb, -⟩ := execStep_some_spec h
          have hne : m.buying ≠ [] := by intro he; rw [he] at hb; simp at hb
          have := List.length_pos.mpr hne
          omega
        obtain ⟨k, hk⟩ : ∃ k, m.buying.length + m.selling.length = k + 1 :=
          ⟨m.buying.length + m.selling.length - 1, by omega⟩
        have e1 : Market.executeFuel (n + 1) m now
            = (t1 :: t2 :: (Market.executeFuel n m1 now).1, (Market.executeFuel n m1 now).2) := by
          simp [Market.executeFuel, h]
        have e2 : m.execute now
            = (t1 :: t2 :: (Market.executeFuel k m1 now).1, (Market.executeFuel k m1 now).2) := by
          unfold Market.execute
          rw [hk]
          simp [Market.executeFuel, h]
        have r1 : Market.executeFuel n m1 now = m1.execute now := by
          apply ih n (by omega) m1 now
          omega
        have r2 : Market.executeFuel k m1 now = m1.execute now := by
          apply ih k (by omega) m1 now
          omega
        rw [e1, e2, r1, r2]

/-- Unfolding equation of the loop: a productive step prepends its two
trade records to the trades of the rest of the run. -/
theorem execute_eq_step {m : Market} {now : ℚ} {t1 t2 : Trade} {m1 : Market}
    (h : m.execStep now = some (t1, t2, m1)) :
    m.execute now = (t1 :: t2 :: (m1.execute now).1, (m1.execute now).2) := by
  have hdec := execStep_decreases h
  have hpos : 1 ≤ m.buying.length + m.selling.length := by omega
  obtain ⟨k, hk⟩ : ∃ k, m.buying.length + m.selling.length = k + 1 :=
    ⟨m.buying.length + m.selling.length - 1, by omega⟩
  have e2 : m.execute now
      = (t1 :: t2 :: (Market.executeFuel k m1 now).1, (Market.executeFuel k m1 now).2) := by
    unfold Market.execute
    rw [hk]
    simp [Market.executeFuel, h]
  rw [e2, executeFuel_congr k m1 now (by omega)]

/-- Unfolding equation of the loop: an unproductive guard returns the
market unchanged with no trades. -/
theorem execute_of_none {m : Market} {now : ℚ} (h : m.execStep now = none) :
    m.execute now = ([], m) := by
  unfold Market.execute
  exact executeFuel_of_none h _

/-- Each fuel unit contributes at most two trade records. -/
theorem executeFuel_length : ∀ (fuel : ℕ) (m : Market) (now : ℚ),
    (Market.executeFuel fuel m now).1.length ≤ 2 * fuel := by
  intro fuel
  induction fuel with
  | zero => intro m now; simp [Market.executeFuel]
  | succ n ih =>
    intro m now
    cases h : m.execStep now with
    | none => simp [Market.executeFuel, h]
    | some t =>
      obtain ⟨t1, t2, m1⟩ := t
      have := ih m1 now
      simp only [Market.executeFuel, h, List.length_cons]
      omega

/-- C1 (counterexample): in the reference scenario the code matches agent
D for 50 units (not 150) and leaves a residual sell order of 150 units
(not 50) in the book, so the claim's D figures are swapped. -/
theorem execute_scenario_spec_false :
    ((scenarioMarket.execute 6).1.filter (fun t => t.agent == "agent D")).map Trade.amount
      = [-50] ∧
    ((scenarioMarket.execute 6).2.selling.map (fun o => (o.agent, o.amount)))
      = [("agent D", -150), ("agent E", -100)] ∧
    decide (((scenarioMarket.execute 6).2.selling.map (fun o => (o.agent, o.amount)))
      = [("agent D", -50), ("agent E", -100)]) = false := by
  decide

/-- C1 (amended): the end-to-end scenario yields exactly 6 trade records;
A's 250 and C's 200 match at price 4.10, D matches 50 units at price 4.01,
and the remaining book holds exactly F's 10@3.99 buy order, D's residual
150@4.01 sell order and E's 100@4.10 sell order. -/
theorem execute_scenario_correct :
    scenarioMarket.execute 6 =
      ([⟨"grain", some (mkRat 41 10), 6, 200, "agent B"⟩,
        ⟨"grain", some (mkRat 41 10), 6, -200, "agent C"⟩,
        ⟨"grain", some (mkRat 41 10), 6, 250, "agent B"⟩,
        ⟨"grain", some (mkRat 41 10), 6, -250, "agent A"⟩,
        ⟨"grain", some (mkRat 401 100), 6, 50, "agent B"⟩,
        ⟨"grain", some (mkRat 401 100), 6, -50, "agent D"⟩],
       { name := "grain", now := 0,
         buying := [⟨"grain", some (mkRat 399 100), 6, 10, "agent F"⟩],
         selling := [⟨"grain", some (mkRat 401 100), 3, -150, "agent D"⟩,
                     ⟨"grain", some (mkRat 41 10), 5, -100, "agent E"⟩],
         lastprice := mkRat 401 100, transaction := 3 }) := by
  decide

/-- C3: `exchange.sell` delegates to `market.buy` (exchgs.py line 280), so
it coincides with `exchange.buy` on every input and a sell of 100 wheat
lands as a +100 order in the buying book of the lazily created market. -/
theorem exchange_sell_delegates_to_buy :
    (∀ (e : Exchange) (security agent : String) (amount : ℤ) (price : Option ℚ)
        (now : ℚ) (update : Bool),
      e.sell security agent amount price now update
        = e.buy security agent amount price now update) ∧
    ((Exchange.init "X").sell "wheat" "A" 100 (some 4) 1 true).markets
      = [("wheat", { name := "wheat", now := 0,
                     buying := [⟨"wheat", some 4, 1, 100, "A"⟩],
                     selling := [], lastprice := 0, transaction := 0 })] := by
  constructor
  · intro e security agent amount price now update
    rfl
  · decide

/-- C4 (counterexample): a zero-quantity order is not rejected; `enter`
routes it through the `amount >= 0` branch into the buying book. -/
theorem enter_zero_quantity_not_rejected :
    ((Market.init "grain" 0).enter zeroOrder true).buying = [zeroOrder] ∧
    ((Market.init "grain" 0).enter zeroOrder true).selling = [] := by
  decide

/-- C4 (amended): for every order with quantity zero, `enter` inserts the
order into the buying book (no rejection happens at the API boundary); the
selling book is unchanged apart from any replace-triggered close. -/
theorem enter_zero_quantity_inserted (m : Market) (o : Trade) (u : Bool)
    (h : o.amount = 0) :
    o ∈ (m.enter o u).buying ∧
    (m.enter o u).selling = (if u then m.close o.agent else m).selling := by
  unfold Market.enter
  rw [if_pos (by rw [h] : (0 : ℤ) ≤ o.amount)]
  constructor
  · dsimp only
    rw [mem_stableSort]
    simp
  · rfl

/-- Witness for the amended C4 at the concrete zero-quantity order. -/
theorem enter_zero_quantity_inserted_witness :
    zeroOrder ∈ ((Market.init "grain" 0).enter zeroOrder true).buying ∧
    ((Market.init "grain" 0).enter zeroOrder true).selling
      = (if true then (Market.init "grain" 0).close zeroOrder.agent
         else (Market.init "grain" 0)).selling :=
  enter_zero_quantity_inserted (Market.init "grain" 0) zeroOrder true rfl

/-- C9: `execute` yields a finite trade list bounded by twice the number
of resting orders, because every productive iteration deletes at least one
order entirely from the books. -/
theorem execute_finite_bounded (m : Market) (now : ℚ) :
    (m.execute now).1.length ≤ 2 * (m.buying.length + m.selling.length) ∧
    ∀ t1 t2 m1, m.execStep now = some (t1, t2, m1) →
      m1.buying.length + m1.selling.length < m.buying.length + m.selling.length := by
  constructor
  · exact executeFuel_length _ m now
  · intro t1 t2 m1 h
    exact execStep_decreases h

/-- Witness for C9 on the concrete two-order market. -/
theorem execute_finite_bounded_witness :
    (mexW.execute 5).1.length ≤ 2 * (mexW.buying.length + mexW.selling.length) ∧
    mexW1.buying.length + mexW1.selling.length < mexW.buying.length + mexW.selling.length :=
  ⟨(execute_finite_bounded mexW 5).1,
   (execute_finite_bounded mexW 5).2 t1W t2W mexW1 (by decide)⟩

/-- C2: with distinct timestamps on the crossed tops, the more recent top
order sets the trade price to its own limit price; if that order is a
market order, the price falls back to the other top order's limit price. -/
theorem price_setting_recent_order (m : Market) (now : ℚ) (btop stp : Trade)
    (hb : m.buying.getLast? = some btop) (hs : m.selling.head? = some stp)
    (_hne : btop.time ≠ stp.time) (hc : crossed btop stp = true) :
    (∀ p, (if btop.time < stp.time then stp.price else btop.price) = some p →
      ∃ t1 t2 m1, m.execStep now = some (t1, t2, m1) ∧
        t1.price = some p ∧ t2.price = some p) ∧
    ((if btop.time < stp.time then stp.price else btop.price) = none →
      ∀ q, (if btop.time < stp.time then btop.price else stp.price) = some q →
        ∃ t1 t2 m1, m.execStep now = some (t1, t2, m1) ∧
          t1.price = some q ∧ t2.price = some q) := by
  constructor
  · intro p hp
    by_cases hlt : btop.time < stp.time
    · rw [if_pos hlt] at hp
      have hdp : discoverPrice m btop stp = some p := by
        unfold discoverPrice
        rw [if_pos hlt, hp]
      exact ⟨_, _, _, execStep_some_intro m now hb hs hc hdp, rfl, rfl⟩
    · rw [if_neg hlt] at hp
      have hdp : discoverPrice m btop stp = some p := by
        unfold discoverPrice
        rw [if_neg hlt, hp]
      exact ⟨_, _, _, execStep_some_intro m now hb hs hc hdp, rfl, rfl⟩
  · intro h0 q hq
    by_cases hlt : btop.time < stp.time
    · rw [if_pos hlt] at h0
      rw [if_pos hlt] at hq
      have hdp : discoverPrice m btop stp = some q := by
        unfold discoverPrice
        rw [if_pos hlt, h0]
        dsimp only
        rw [hq]
      exact ⟨_, _, _, execStep_some_intro m now hb hs hc hdp, rfl, rfl⟩
    · rw [if_neg hlt] at h0
      rw [if_neg hlt] at hq
      have hdp : discoverPrice m btop stp = some q := by
        unfold discoverPrice
        rw [if_neg hlt, h0]
        dsimp only
        rw [hq]
      exact ⟨_, _, _, execStep_some_intro m now hb hs hc hdp, rfl, rfl⟩

/-- Witness for C2: on `mexW` the buyer (t=2) is more recent than the
seller (t=1), so the trade executes at the buyer's limit price 3. -/
theorem price_setting_recent_order_witness :
    ∃ t1 t2 m1, mexW.execStep 5 = some (t1, t2, m1) ∧
      t1.price = some 3 ∧ t2.price = some 3 :=
  (price_setting_recent_order mexW 5 oBW oSW (by decide) (by decide)
    (by decide) (by decide)).1 3 (by decide)

/-- C10: when the crossed tops carry exactly equal timestamps the
`buying[-1].time < selling[0].time` test fails, so the code treats the
seller as having placed at/after the buyer: the trade price is the buyer's
limit price, falling back to the seller's price, and then to the book scan
that starts from the selling side, only when the buyer's price is the
market-order sentinel. -/
theorem equal_timestamp_buyer_price (m : Market) (now : ℚ) (btop stp : Trade)
    (hb : m.buying.getLast? = some btop) (hs : m.selling.head? = some stp)
    (ht : btop.time = stp.time) (hc : crossed btop stp = true) :
    (∀ p, btop.price = some p →
      ∃ t1 t2 m1, m.execStep now = some (t1, t2, m1) ∧
        t1.price = some p ∧ t2.price = some p) ∧
    (btop.price = none → ∀ q, stp.price = some q →
      ∃ t1 t2 m1, m.execStep now = some (t1, t2, m1) ∧
        t1.price = some q ∧ t2.price = some q) ∧
    (btop.price = none → stp.price = none →
      ∀ r, findLimit (m.selling ++ m.buying.reverse) = some r →
        ∃ t1 t2 m1, m.execStep now = some (t1, t2, m1) ∧
          t1.price = some r ∧ t2.price = some r) := by
  have hnlt : ¬ btop.time < stp.time := by rw [ht]; exact lt_irrefl _
  refine ⟨?_, ?_, ?_⟩
  · intro p hp
    have hdp : discoverPrice m btop stp = some p := by
      unfold discoverPrice
      rw [if_neg hnlt, hp]
    exact ⟨_, _, _, execStep_some_intro m now hb hs hc hdp, rfl, rfl⟩
  · intro h0 q hq
    have hdp : discoverPrice m btop stp = some q := by
      unfold discoverPrice
      rw [if_neg hnlt, h0]
      dsimp only
      rw [hq]
    exact ⟨_, _, _, execStep_some_intro m now hb hs hc hdp, rfl, rfl⟩
  · intro h0 h1 r hr
    have hdp : discoverPrice m btop stp = some r := by
      unfold discoverPrice
      rw [if_neg hnlt, h0]
      dsimp only
      rw [h1]
      dsimp only
      exact hr
    exact ⟨_, _, _, execStep_some_intro m now hb hs hc hdp, rfl, rfl⟩

/-- Witness for C10: equal timestamps on `mW10`; the buyer's limit price 5
sets the trade price. -/
theorem equal_timestamp_buyer_price_witness :
    ∃ t1 t2 m1, mW10.execStep 1 = some (t1, t2, m1) ∧
      t1.price = some 5 ∧ t2.price = some 5 :=
  (equal_timestamp_buyer_price mW10 1 oB10 oS10 (by decide) (by decide)
    (by decide) (by decide)).1 5 (by decide)

/-- C6: every match yields exactly two consecutive trade records, the
first to the buyer-side owner with the matched amount, the second to the
seller-side owner with its negation, both carrying the same price and the
same time. -/
theorem match_yields_trade_pair (m : Market) (now : ℚ) (t1 t2 : Trade) (m1 : Market)
    (btop stp : Trade)
    (hb : m.buying.getLast? = some btop) (hs : m.selling.head? = some stp)
    (h : m.execStep now = some (t1, t2, m1)) :
    t1.agent = btop.agent ∧ t2.agent = stp.agent ∧
    t1.price = t2.price ∧ t1.time = now ∧ t2.time = now ∧
    t1.amount = min btop.amount (-stp.amount) ∧ t2.amount = -t1.amount ∧
    (m.execute now).1 = t1 :: t2 :: (m1.execute now).1 := by
  obtain ⟨btop', stp', price, hb', hs', hc, hdp, e1, e2, e3⟩ := execStep_some_spec h
  rw [hb] at hb'
  rw [hs] at hs'
  obtain rfl : btop = btop' := Option.some.inj hb'
  obtain rfl : stp = stp' := Option.some.inj hs'
  subst e1
  subst e2
  refine ⟨rfl, rfl, rfl, rfl, rfl, rfl, rfl, ?_⟩
  rw [execute_eq_step h]

/-- Witness for C6 on the concrete step of `mexW`. -/
theorem match_yields_trade_pair_witness :
    t1W.agent = oBW.agent ∧ t2W.agent = oSW.agent ∧
    t1W.price = t2W.price ∧ t1W.time = 5 ∧ t2W.time = 5 ∧
    t1W.amount = min oBW.amount (-oSW.amount) ∧ t2W.amount = -t1W.amount ∧
    (mexW.execute 5).1 = t1W :: t2W :: (mexW1.execute 5).1 :=
  match_yields_trade_pair mexW 5 t1W t2W mexW1 oBW oSW (by decide) (by decide)
    (by decide)

/-- C7: when both crossed tops are market orders and no order anywhere in
either book carries a limit price, `execute` halts without yielding any
trade and leaves the market unchanged. -/
theorem no_price_discovery_halts (m : Market) (now : ℚ) (btop stp : Trade)
    (hb : m.buying.getLast? = some btop) (hs : m.selling.head? = some stp)
    (hpb : btop.price = none) (hps : stp.price = none)
    (hB : ∀ o ∈ m.buying, o.price = none) (hS : ∀ o ∈ m.selling, o.price = none) :
    m.execute now = ([], m) := by
  have hfind : ∀ l : List Trade, (∀ o ∈ l, o.price = none) → findLimit l = none := by
    intro l hl
    unfold findLimit
    have hnone : l.find? (fun o => o.price.isSome) = none := by
      rw [List.find?_eq_none]
      intro x hx
      simp [hl x hx]
    rw [hnone]
  have hc : crossed btop stp = true := by
    unfold crossed
    rw [hps, hpb]
  have hdp : discoverPrice m btop stp = none := by
    unfold discoverPrice
    by_cases hlt : btop.time < stp.time
    · rw [if_pos hlt, hps]
      dsimp only
      rw [hpb]
      dsimp only
      apply hfind
      intro o ho
      rcases List.mem_append.mp ho with h1 | h2
      · exact hB o (List.mem_reverse.mp h1)
      · exact hS o h2
    · rw [if_neg hlt, hpb]
      dsimp only
      rw [hps]
      dsimp only
      apply hfind
      intro o ho
      rcases List.mem_append.mp ho with h1 | h2
      · exact hS o h1
      · exact hB o (List.mem_reverse.mp h2)
  have hstep : m.execStep now = none := by
    unfold Market.execStep
    rw [hb, hs]
    dsimp only
    rw [if_pos hc, hdp]
  exact execute_of_none hstep

/-- Witness for C7 on the mutually crossed pair of market orders. -/
theorem no_price_discovery_halts_witness :
    mW7.execute 9 = ([], mW7) :=
  no_price_discovery_halts mW7 9 oB7 oS7 (by decide) (by decide) rfl rfl
    (by decide) (by decide)

/-- C5: among equal-priced resting sell orders the one with the larger
(more recent) timestamp sorts strictly earlier under the sell-book key,
lands at the head of the book, and the head is the position `execute`
consumes first — most-recent-first, the opposite of the code comment's
stated oldest-entry-first intent. -/
theorem equal_price_recent_first (x y : Trade) (p : ℚ)
    (hx : x.price = some p) (hy : y.price = some p) (ht : y.time < x.time) :
    sellLE x y = true ∧ sellLE y x = false ∧
    (∀ m : Market, m.selling = [] → x.amount < 0 → y.amount < 0 →
      ((m.enter y false).enter x false).selling = [x, y]) ∧
    (∀ (m : Market) (now : ℚ) (t1 t2 : Trade) (m1 : Market),
      m.selling.head? = some x → m.execStep now = some (t1, t2, m1) →
      t2.agent = x.agent) := by
  have h1 : sellLE x y = true := by
    unfold sellLE
    rw [hx, hy]
    simp [ht.le]
  have h2 : sellLE y x = false := by
    unfold sellLE
    rw [hx, hy]
    simp [not_le.mpr ht, lt_irrefl]
  refine ⟨h1, h2, ?_, ?_⟩
  · intro m hsel hxa hya
    unfold Market.enter
    simp only [Bool.false_eq_true, if_false, not_le.mpr hya, not_le.mpr hxa,
      hsel, stableSort, insertOrdered, h2, List.nil_append]
  · intro m now t1 t2 m1 hhead h
    obtain ⟨btop, stp, price, hb', hs', hc, hdp, e1, e2, e3⟩ := execStep_some_spec h
    rw [hhead] at hs'
    obtain rfl : x = stp := Option.some.inj hs'
    subst e2
    rfl

/-- Witness for C5 on two concrete equal-priced sell orders. -/
theorem equal_price_recent_first_witness :
    sellLE oX5 oY5 = true ∧ sellLE oY5 oX5 = false :=
  ⟨(equal_price_recent_first oX5 oY5 4 rfl rfl (by decide)).1,
   (equal_price_recent_first oX5 oY5 4 rfl rfl (by decide)).2.1⟩

/-- `enter` preserves the strict book signs when the submitted order has
nonzero quantity. -/
theorem signs_enter {m : Market} {o0 : Trade} {u : Bool}
    (hB : ∀ o ∈ m.buying, 0 < o.amount) (hS : ∀ o ∈ m.selling, o.amount < 0)
    (hnz : o0.amount ≠ 0) :
    (∀ o ∈ (m.enter o0 u).buying, 0 < o.amount) ∧
    (∀ o ∈ (m.enter o0 u).selling, o.amount < 0) := by
  have hB1 : ∀ o ∈ (if u then m.close o0.agent else m).buying, 0 < o.amount := by
    cases u with
    | false => simpa using hB
    | true =>
      simp only [if_pos]
      intro o ho
      exact hB o (List.mem_of_mem_filter ho)
  have hS1 : ∀ o ∈ (if u then m.close o0.agent else m).selling, o.amount < 0 := by
    cases u with
    | false => simpa using hS
    | true =>
      simp only [if_pos]
      intro o ho
      exact hS o (List.mem_of_mem_filter ho)
  unfold Market.enter
  by_cases ha : (0 : ℤ) ≤ o0.amount
  · rw [if_pos ha]
    constructor
    · intro o ho
      rw [mem_stableSort] at ho
      rcases List.mem_append.mp ho with h1 | h2
      · exact hB1 o h1
      · rw [List.mem_singleton] at h2
        subst h2
        omega
    · intro o ho
      exact hS1 o ho
  · rw [if_neg ha]
    constructor
    · intro o ho
      exact hB1 o ho
    · intro o ho
      rw [mem_stableSort] at ho
      rcases List.mem_append.mp ho with h1 | h2
      · exact hS1 o h1
      · rw [List.mem_singleton] at h2
        subst h2
        omega

/-- A productive execution step preserves the strict book signs: a fully
matched order is deleted and a partially matched residual keeps the strict
sign of its side. -/
theorem signs_execStep {m : Market} {now : ℚ} {t1 t2 : Trade} {m1 : Market}
    (h : m.execStep now = some (t1, t2, m1))
    (hB : ∀ o ∈ m.buying, 0 < o.amount) (hS : ∀ o ∈ m.selling, o.amount < 0) :
    (∀ o ∈ m1.buying, 0 < o.amount) ∧ (∀ o ∈ m1.selling, o.amount < 0) := by
  obtain ⟨btop, stp, price, hb, hs, hc, hdp, e1, e2, e3⟩ := execStep_some_spec h
  subst e3
  constructor
  · intro o ho
    dsimp only at ho
    unfold reduceBuy at ho
    by_cases hcase : min btop.amount (-stp.amount) = btop.amount
    · rw [if_pos hcase] at ho
      exact hB o ((List.dropLast_sublist m.buying).subset ho)
    · rw [if_neg hcase] at ho
      rcases List.mem_append.mp ho with h1 | h2
      · exact hB o ((List.dropLast_sublist m.buying).subset h1)
      · rw [List.mem_singleton] at h2
        subst h2
        dsimp only
        have hmin : min btop.amount (-stp.amount) ≤ btop.amount := min_le_left _ _
        omega
  · intro o ho
    dsimp only at ho
    unfold reduceSell at ho
    by_cases hcase : min btop.amount (-stp.amount) = -stp.amount
    · rw [if_pos hcase] at ho
      exact hS o ((List.tail_sublist m.selling).subset ho)
    · rw [if_neg hcase] at ho
      rcases List.mem_cons.mp ho with h1 | h2
      · subst h1
        dsimp only
        have hmin : min btop.amount (-stp.amount) ≤ -stp.amount := min_le_right _ _
        omega
      · exact hS o ((List.tail_sublist m.selling).subset h2)

/-- The full execution loop preserves the strict book signs. -/
theorem signs_executeFuel : ∀ (fuel : ℕ) (m : Market) (now : ℚ),
    (∀ o ∈ m.buying, 0 < o.amount) → (∀ o ∈ m.selling, o.amount < 0) →
    (∀ o ∈ (Market.executeFuel fuel m now).2.buying, 0 < o.amount) ∧
    (∀ o ∈ (Market.executeFuel fuel m now).2.selling, o.amount < 0) := by
  intro fuel
  induction fuel with
  | zero =>
    intro m now hB hS
    exact ⟨hB, hS⟩
  | succ n ih =>
    intro m now hB hS
    cases h : m.execStep now with
    | none =>
      simp only [Market.executeFuel, h]
      exact ⟨hB, hS⟩
    | some t =>
      obtain ⟨t1, t2, m1⟩ := t
      simp only [Market.executeFuel, h]
      obtain ⟨hB1, hS1⟩ := signs_execStep h hB hS
      exact ih m1 now hB1 hS1

/-- C8 (counterexample): a zero-quantity order is reachable through
`enter`, and it lands in the buying book with amount `0`, violating the
claimed strict positivity. -/
theorem book_sign_invariant_cex :
    ReachAny ((Market.init "grain" 0).enter zeroOrder true) ∧
    ((Market.init "grain" 0).enter zeroOrder true).buying.all
      (fun o => decide (0 < o.amount)) = false := by
  constructor
  · exact ReachAny.enter (Market.init "grain" 0) zeroOrder true
      (ReachAny.init "grain" 0)
  · decide

/-- C8 (amended): in every market state reachable through enter, buy,
sell, close and execute in which every submitted order has nonzero
quantity, every buying-book order has positive amount and every
selling-book order negative amount; in particular no zero-quantity order
is ever stored (a fully filled order is removed instead). -/
theorem book_sign_invariant_nonzero (m : Market) (h : ReachNZ m) :
    (∀ o ∈ m.buying, 0 < o.amount) ∧ (∀ o ∈ m.selling, o.amount < 0) := by
  induction h with
  | init name now =>
    constructor
    · intro o ho
      simp [Market.init] at ho
    · intro o ho
      simp [Market.init] at ho
  | enter m o u hr hnz ih =>
    exact signs_enter ih.1 ih.2 hnz
  | buy m a amt p now u hr hnz ih =>
    exact signs_enter ih.1 ih.2 hnz
  | sell m a amt p now u hr hnz ih =>
    exact signs_enter ih.1 ih.2 (neg_ne_zero.mpr hnz)
  | close m a hr ih =>
    constructor
    · intro o ho
      exact ih.1 o (List.mem_of_mem_filter ho)
    · intro o ho
      exact ih.2 o (List.mem_of_mem_filter ho)
  | exec m now hr ih =>
    exact signs_executeFuel _ m now ih.1 ih.2

/-- Witness for the amended C8 at a concrete reachable market. -/
theorem book_sign_invariant_nonzero_witness :
    (∀ o ∈ ((Market.init "grain" 0).enter ⟨"grain", some 4, 1, 5, "agent A"⟩ true).buying,
      0 < o.amount) ∧
    (∀ o ∈ ((Market.init "grain" 0).enter ⟨"grain", some 4, 1, 5, "agent A"⟩ true).selling,
      o.amount < 0) :=
  book_sign_invariant_nonzero _
    (ReachNZ.enter (Market.init "grain" 0) ⟨"grain", some 4, 1, 5, "agent A"⟩ true
      (ReachNZ.init "grain" 0) (by decide))
